import Mathlib

/-!
Verification of the DEEP-BASED-CLI tools.

The embedding models the three C++ programs of the repository:

* `src/tools/website_mapper.cpp` — fetches a URL with libcurl and scans the
  body with two ECMAScript regexes,
  `<a[^>]*href=["']([^"']+)["']` (icase) for link targets and
  `<button[^>]*>(.*?)</button>` (icase) for button labels, each applied
  repeatedly with `std::regex_search`, restarting at the end of the previous
  whole match.  The matchers below implement exactly the backtracking
  semantics of those two patterns (greedy `[^>]*`, lazy `(.*?)`, `.` not
  matching the line terminators `\n`/`\r`, ASCII case folding for `icase`).
* `src/tools/cli_runner.cpp` — joins its arguments, runs them via
  `std::system`, and returns that result.
* `src/tools/cli_bridge.cpp` — joins its arguments after a fixed python
  command, runs them via `popen`, prints the captured output and returns 0;
  the `pclose` status is discarded by the `unique_ptr` deleter.

Strings are `List Char`; the process environment (curl outcome, subprocess
outcome) is passed explicitly.
-/

/-- The single-quote character, written numerically. -/
def squote : Char := Char.ofNat 39

/-- ASCII lower-casing, the case folding used by `std::regex::icase` in the
`"C"` locale. -/
def lower (c : Char) : Char :=
  if 65 ≤ c.toNat ∧ c.toNat ≤ 90 then Char.ofNat (c.toNat + 32) else c

/-- Is `c` one of the two quote characters of the class `["']`? -/
def isQuote (c : Char) : Bool := c == '"' || c == squote

/-- Strip the literal `pat` from the front of `l`, comparing case
insensitively; return the remainder on success. -/
def stripCI : List Char → List Char → Option (List Char)
  | [], l => some l
  | _ :: _, [] => none
  | p :: ps, c :: cs => if lower c = lower p then stripCI ps cs else none

/-- Match `["']([^"']+)["']` at the front of `l`: an opening quote, a
nonempty capture of non-quote characters (greedy, which here is forced:
the run must stop exactly at the next quote), and a closing quote that need
not equal the opening one.  Returns the capture and the text after the
closing quote. -/
def matchQuoted (l : List Char) : Option (List Char × List Char) :=
  match l with
  | [] => none
  | q :: rest =>
    if isQuote q then
      match rest.dropWhile (fun c => !isQuote c) with
      | [] => none
      | q2 :: r2 =>
        if isQuote q2 ∧ rest.takeWhile (fun c => !isQuote c) ≠ [] then
          some (rest.takeWhile (fun c => !isQuote c), r2)
        else none
    else none

/-- The literal `href=` of the link pattern. -/
def hrefWord : List Char := ['h', 'r', 'e', 'f', '=']

/-- Match `href=["']([^"']+)["']` at the front of `l` (case-insensitive
literal). -/
def tryHref (l : List Char) : Option (List Char × List Char) :=
  match stripCI hrefWord l with
  | some r => matchQuoted r
  | none => none

/-- Match `[^>]*href=["']([^"']+)["']` at the front of `l` with the greedy
backtracking of ECMAScript: the star first consumes as many non-`>`
characters as possible and gives characters back only when the tail fails,
so the deepest position at which `tryHref` succeeds wins. -/
def matchAfterA : List Char → Option (List Char × List Char)
  | [] => tryHref []
  | c :: rest =>
    if c = '>' then tryHref (c :: rest)
    else
      match matchAfterA rest with
      | some r => some r
      | none => tryHref (c :: rest)

/-- Match the whole link pattern `<a[^>]*href=["']([^"']+)["']` starting
exactly at the front of `l`.  The `<` is literal; the `a` is folded by
`icase`. -/
def matchLinkAt : List Char → Option (List Char × List Char)
  | c1 :: c2 :: rest =>
    if c1 = '<' ∧ lower c2 = 'a' then matchAfterA rest else none
  | _ => none

theorem stripCI_length {pat l r : List Char} (h : stripCI pat l = some r) :
    r.length + pat.length = l.length := by
  induction pat generalizing l with
  | nil =>
    simp only [stripCI, Option.some.injEq] at h
    simp [← h]
  | cons p ps ih =>
    cases l with
    | nil => simp [stripCI] at h
    | cons c cs =>
      simp only [stripCI] at h
      split at h
      · have := ih h
        simp only [List.length_cons]
        omega
      · exact absurd h (by simp)

theorem dropWhile_length_le' (p : Char → Bool) (l : List Char) :
    (l.dropWhile p).length ≤ l.length := by
  conv_rhs => rw [← List.takeWhile_append_dropWhile p l]
  simp only [List.length_append]
  omega

theorem matchQuoted_length {l cap after : List Char}
    (h : matchQuoted l = some (cap, after)) : after.length < l.length := by
  cases l with
  | nil => simp [matchQuoted] at h
  | cons q rest =>
    simp only [matchQuoted] at h
    split at h
    · split at h
      · exact absurd h (by simp)
      · rename_i q2 r2 hd
        split at h
        · obtain ⟨h1, h2⟩ : rest.takeWhile (fun c => !isQuote c) = cap ∧ r2 = after := by
            simpa using h
          have hlen : (rest.dropWhile (fun c => !isQuote c)).length ≤ rest.length :=
            dropWhile_length_le' _ _
          rw [hd] at hlen
          subst h2
          simp only [List.length_cons] at hlen ⊢
          omega
        · exact absurd h (by simp)
    · exact absurd h (by simp)

theorem tryHref_length {l cap after : List Char}
    (h : tryHref l = some (cap, after)) : after.length < l.length := by
  simp only [tryHref] at h
  split at h
  · rename_i r hstrip
    have h1 := stripCI_length hstrip
    have h2 := matchQuoted_length h
    omega
  · exact absurd h (by simp)

theorem matchAfterA_length {l cap after : List Char}
    (h : matchAfterA l = some (cap, after)) : after.length < l.length := by
  induction l with
  | nil => exact absurd (tryHref_length h) (by simp)
  | cons c rest ih =>
    simp only [matchAfterA] at h
    split at h
    · exact tryHref_length h
    · split at h
      · rename_i r hr
        obtain rfl : r = (cap, after) := by simpa using h
        have := ih hr
        simp only [List.length_cons]
        omega
      · exact tryHref_length h

theorem matchLinkAt_length {l cap after : List Char}
    (h : matchLinkAt l = some (cap, after)) : after.length < l.length := by
  match l with
  | [] => simp [matchLinkAt] at h
  | [c] => simp [matchLinkAt] at h
  | c1 :: c2 :: rest =>
    simp only [matchLinkAt] at h
    split at h
    · have := matchAfterA_length h
      simp only [List.length_cons]
      omega
    · exact absurd h (by simp)

/-- The `regex_search` loop of `website_mapper.cpp` for the link pattern:
find the leftmost match, record capture group 1, and resume at the end of
the whole match.  `fuel` bounds the recursion; each step discards at least
one character, so `l.length` fuel always suffices. -/
def extractLinksAux : Nat → List Char → List (List Char)
  | 0, _ => []
  | fuel + 1, l =>
    match matchLinkAt l with
    | some (cap, after) => cap :: extractLinksAux fuel after
    | none =>
      match l with
      | [] => []
      | _ :: rest => extractLinksAux fuel rest

/-- All link targets extracted from `body`, in document order. -/
def extractLinks (body : List Char) : List (List Char) :=
  extractLinksAux body.length body

/-- The tag name of the button pattern. -/
def buttonWord : List Char := ['b', 'u', 't', 't', 'o', 'n']

/-- The closing tag `</button>` of the button pattern. -/
def buttonClose : List Char := ['<', '/', 'b', 'u', 't', 't', 'o', 'n', '>']

/-- Does `l` start with the literal `pat`, case-insensitively? -/
def startsCI (pat l : List Char) : Bool := (stripCI pat l).isSome

/-- The line terminators that the ECMAScript `.` never matches (for the
byte-character `std::regex` these are `\n` and `\r`). -/
def isLineTerm (c : Char) : Bool := c == '\n' || c == '\r'

/-- Match `(.*?)</button>` at the front of `l` with lazy semantics: at each
position first try the closing tag, and only extend the capture (by one
non-line-terminator character) when that fails.  Returns the capture and
the text after `</button>`. -/
def buttonBody : List Char → Option (List Char × List Char)
  | [] => none
  | c :: rest =>
    if startsCI buttonClose (c :: rest) then some ([], (c :: rest).drop 9)
    else if isLineTerm c then none
    else
      match buttonBody rest with
      | some (cap, after) => some (c :: cap, after)
      | none => none

/-- Match the whole button pattern `<button[^>]*>(.*?)</button>` starting
exactly at the front of `l`.  `[^>]*>` deterministically skips to the first
`>` after the tag name. -/
def matchButtonAt : List Char → Option (List Char × List Char)
  | [] => none
  | c :: rest =>
    if c = '<' then
      match stripCI buttonWord rest with
      | none => none
      | some r =>
        match r.dropWhile (fun c => c != '>') with
        | [] => none
        | _ :: r2 => buttonBody r2
    else none

theorem buttonBody_length {l : List Char} :
    ∀ {cap after : List Char},
      buttonBody l = some (cap, after) → after.length < l.length := by
  induction l with
  | nil => intro cap after h; simp [buttonBody] at h
  | cons c rest ih =>
    intro cap after h
    simp only [buttonBody] at h
    split at h
    · rename_i hcl
      obtain ⟨h1, h2⟩ : ([] : List Char) = cap ∧ (c :: rest).drop 9 = after := by
        simpa using h
      have h9 : 9 ≤ (c :: rest).length := by
        simp only [startsCI, Option.isSome_iff_exists] at hcl
        obtain ⟨r, hr⟩ := hcl
        have := stripCI_length hr
        simp only [buttonClose, List.length_cons] at this
        simp only [List.length_cons]
        omega
      subst h2
      simp only [List.length_drop]
      omega
    · split at h
      · exact absurd h (by simp)
      · split at h
        · rename_i cap' after' hb
          obtain ⟨h1, h2⟩ : c :: cap' = cap ∧ after' = after := by simpa using h
          subst h2
          have := ih hb
          simp only [List.length_cons]
          omega
        · exact absurd h (by simp)

theorem matchButtonAt_length {l cap after : List Char}
    (h : matchButtonAt l = some (cap, after)) : after.length < l.length := by
  cases l with
  | nil => simp [matchButtonAt] at h
  | cons c rest =>
    simp only [matchButtonAt] at h
    split at h
    · split at h
      · exact absurd h (by simp)
      · rename_i r hstrip
        split at h
        · exact absurd h (by simp)
        · rename_i c2 r2 hdrop
          have h1 := stripCI_length hstrip
          have h2 : (r.dropWhile (fun c => c != '>')).length ≤ r.length :=
            dropWhile_length_le' _ _
          rw [hdrop] at h2
          have h3 := buttonBody_length h
          simp only [buttonWord, List.length_cons] at h1 h2 ⊢
          omega
    · exact absurd h (by simp)

/-- The `regex_search` loop of `website_mapper.cpp` for the button pattern. -/
def extractButtonsAux : Nat → List Char → List (List Char)
  | 0, _ => []
  | fuel + 1, l =>
    match matchButtonAt l with
    | some (cap, after) => cap :: extractButtonsAux fuel after
    | none =>
      match l with
      | [] => []
      | _ :: rest => extractButtonsAux fuel rest

/-- All button labels extracted from `body`, in document order. -/
def extractButtons (body : List Char) : List (List Char) :=
  extractButtonsAux body.length body

/-- Outcome of the curl environment seen by `website_mapper.cpp`:
`curl_easy_init` may fail, `curl_easy_perform` may fail with a reason
string (`curl_easy_strerror`), or the fetch yields the body. -/
inductive FetchOutcome where
  | initFailure : FetchOutcome
  | transportFailure : List Char → FetchOutcome
  | success : List Char → FetchOutcome
deriving DecidableEq

/-- Externally visible activity of a run, used to state that a failing run
performs no network call / no extraction. -/
inductive ProcEvent where
  | networkCall : ProcEvent
  | extraction : ProcEvent
  | subprocessCall : ProcEvent
deriving DecidableEq

/-- Observable result of one process invocation: the bytes written to
stdout and to stderr, the value returned from `main`, and the external
activity performed. -/
structure ProcResult where
  out : List Char
  err : List Char
  exitCode : Int
  events : List ProcEvent
deriving DecidableEq

/-- The two output sections of `website_mapper.cpp`: the links header with
one ` - <link>` line per link, a blank line, then the buttons header with
one ` - <label>` line per label. -/
def renderOutput (links buttons : List (List Char)) : List Char :=
  ("Links found:\n").toList
    ++ (links.map (fun s => (" - ").toList ++ s ++ ['\n'])).flatten
    ++ ('\n' :: ("Buttons found:\n").toList)
    ++ (buttons.map (fun s => (" - ").toList ++ s ++ ['\n'])).flatten

/-- `main` of `src/tools/website_mapper.cpp`.  `argv` includes the program
name; `fetch` is the behaviour of the curl environment for this run. -/
def websiteMapperMain (argv : List (List Char)) (fetch : FetchOutcome) :
    ProcResult :=
  if argv.length < 2 then
    { out := [],
      err := ("Usage: ").toList ++ argv.headD [] ++ (" <url>\n").toList,
      exitCode := 1, events := [] }
  else
    match fetch with
    | .initFailure =>
      { out := [], err := ("Failed to initialize libcurl\n").toList,
        exitCode := 1, events := [] }
    | .transportFailure reason =>
      { out := [],
        err := ("curl_easy_perform() failed: ").toList ++ reason ++ ['\n'],
        exitCode := 1, events := [.networkCall] }
    | .success body =>
      { out := renderOutput (extractLinks body) (extractButtons body),
        err := [], exitCode := 0,
        events := [.networkCall, .extraction] }

/-- `main` of `src/tools/cli_runner.cpp`: join the arguments, call
`std::system`, print a diagnostic when its result is nonzero, and return
that result unchanged.  `systemResult` is what `std::system` returns for
the assembled command in this run's environment. -/
def cliRunnerMain (argv : List (List Char)) (systemResult : Int) :
    ProcResult :=
  if argv.length < 2 then
    { out := [], err := ("No command provided\n").toList,
      exitCode := 1, events := [] }
  else
    { out := [],
      err := if systemResult ≠ 0 then
          ("Command failed with code ").toList
            ++ (toString systemResult).toList ++ ['\n']
        else [],
      exitCode := systemResult, events := [.subprocessCall] }

/-- `main` of `src/tools/cli_bridge.cpp`: join the arguments after the
fixed python command and run them with `popen`.  `popenResult` is `none`
when the pipe cannot be opened, otherwise the captured stdout of the
subprocess together with its exit code.  The exit code is discarded (the
`unique_ptr` deleter ignores `pclose`'s return value) and `main` returns 0
whenever the pipe opened. -/
def cliBridgeMain (argv : List (List Char))
    (popenResult : Option (List Char × Int)) : ProcResult :=
  if argv.length < 2 then
    { out := [], err := ("Usage: cli_bridge <args>\n").toList,
      exitCode := 1, events := [] }
  else
    match popenResult with
    | none =>
      { out := [], err := ("Failed to run command\n").toList,
        exitCode := 1, events := [.subprocessCall] }
    | some (captured, _exit) =>
      { out := captured, err := [], exitCode := 0,
        events := [.subprocessCall] }

theorem extractLinksAux_nil (fuel : Nat) : extractLinksAux fuel [] = [] := by
  cases fuel with
  | zero => rfl
  | succ f => rfl

theorem extractLinksAux_fuel :
    ∀ (f1 f2 : Nat) (l : List Char), l.length ≤ f1 → l.length ≤ f2 →
      extractLinksAux f1 l = extractLinksAux f2 l := by
  intro f1
  induction f1 with
  | zero =>
    intro f2 l h1 h2
    have : l = [] := List.length_eq_zero.mp (Nat.le_zero.mp h1)
    subst this
    rw [extractLinksAux_nil, extractLinksAux_nil]
  | succ f ih =>
    intro f2 l h1 h2
    cases l with
    | nil => rw [extractLinksAux_nil, extractLinksAux_nil]
    | cons c rest =>
      cases f2 with
      | zero => simp at h2
      | succ g =>
        simp only [extractLinksAux]
        cases hm : matchLinkAt (c :: rest) with
        | some r =>
          obtain ⟨cap, after⟩ := r
          have hlen := matchLinkAt_length hm
          simp only [List.length_cons] at hlen h1 h2
          dsimp only
          rw [ih g after (by omega) (by omega)]
        | none =>
          simp only [List.length_cons] at h1 h2
          dsimp only
          rw [ih g rest (by omega) (by omega)]

theorem extractLinks_cons_some {c : Char} {rest cap after : List Char}
    (hm : matchLinkAt (c :: rest) = some (cap, after)) :
    extractLinks (c :: rest) = cap :: extractLinks after := by
  have hlen := matchLinkAt_length hm
  simp only [List.length_cons] at hlen
  simp only [extractLinks, List.length_cons, extractLinksAux, hm]
  rw [extractLinksAux_fuel rest.length after.length after (by omega) (by omega)]

theorem extractLinks_cons_none {c : Char} {rest : List Char}
    (hm : matchLinkAt (c :: rest) = none) :
    extractLinks (c :: rest) = extractLinks rest := by
  simp only [extractLinks, List.length_cons, extractLinksAux, hm]

theorem extractButtonsAux_nil (fuel : Nat) : extractButtonsAux fuel [] = [] := by
  cases fuel with
  | zero => rfl
  | succ f => rfl

theorem extractButtonsAux_fuel :
    ∀ (f1 f2 : Nat) (l : List Char), l.length ≤ f1 → l.length ≤ f2 →
      extractButtonsAux f1 l = extractButtonsAux f2 l := by
  intro f1
  induction f1 with
  | zero =>
    intro f2 l h1 h2
    have : l = [] := List.length_eq_zero.mp (Nat.le_zero.mp h1)
    subst this
    rw [extractButtonsAux_nil, extractButtonsAux_nil]
  | succ f ih =>
    intro f2 l h1 h2
    cases l with
    | nil => rw [extractButtonsAux_nil, extractButtonsAux_nil]
    | cons c rest =>
      cases f2 with
      | zero => simp at h2
      | succ g =>
        simp only [extractButtonsAux]
        cases hm : matchButtonAt (c :: rest) with
        | some r =>
          obtain ⟨cap, after⟩ := r
          have hlen := matchButtonAt_length hm
          simp only [List.length_cons] at hlen h1 h2
          dsimp only
          rw [ih g after (by omega) (by omega)]
        | none =>
          simp only [List.length_cons] at h1 h2
          dsimp only
          rw [ih g rest (by omega) (by omega)]

theorem extractButtons_cons_some {c : Char} {rest cap after : List Char}
    (hm : matchButtonAt (c :: rest) = some (cap, after)) :
    extractButtons (c :: rest) = cap :: extractButtons after := by
  have hlen := matchButtonAt_length hm
  simp only [List.length_cons] at hlen
  simp only [extractButtons, List.length_cons, extractButtonsAux, hm]
  rw [extractButtonsAux_fuel rest.length after.length after (by omega) (by omega)]

theorem extractButtons_cons_none {c : Char} {rest : List Char}
    (hm : matchButtonAt (c :: rest) = none) :
    extractButtons (c :: rest) = extractButtons rest := by
  simp only [extractButtons, List.length_cons, extractButtonsAux, hm]

theorem char_eq_of_toNat_eq {a b : Char} (h : a.toNat = b.toNat) : a = b :=
  Char.eq_of_val_eq (UInt32.ext h)

theorem toNat_ofNat_valid {n : Nat} (h : Nat.isValidChar n) :
    (Char.ofNat n).toNat = n := by
  unfold Char.ofNat
  rw [dif_pos h]
  rfl

theorem lower_toNat (c : Char) :
    (lower c).toNat =
      if 65 ≤ c.toNat ∧ c.toNat ≤ 90 then c.toNat + 32 else c.toNat := by
  unfold lower
  split
  · rename_i h
    exact toNat_ofNat_valid (Or.inl (by omega))
  · rfl

/-- Lower-casing can only produce a lowercase letter or leave the character
unchanged, so for a target outside the lowercase range it is injective. -/
theorem lower_eq_nonletter {c t : Char} (h1 : t.toNat < 97)
    (h2 : t.toNat < 65 ∨ 90 < t.toNat) : lower c = t ↔ c = t := by
  constructor
  · intro h
    apply char_eq_of_toNat_eq
    have hn := congrArg Char.toNat h
    rw [lower_toNat] at hn
    split at hn <;> omega
  · intro h
    subst h
    apply char_eq_of_toNat_eq
    rw [lower_toNat]
    split
    · omega
    · rfl

theorem lower_eq_lt_iff {c : Char} : lower c = '<' ↔ c = '<' :=
  lower_eq_nonletter (by decide) (Or.inl (by decide))

theorem lower_eq_eqsign_iff {c : Char} : lower c = '=' ↔ c = '=' :=
  lower_eq_nonletter (by decide) (Or.inl (by decide))

theorem lower_dq : lower '"' = '"' := by decide

theorem lower_sq : lower squote = squote := by decide

theorem lower_gt : lower '>' = '>' := by decide

theorem lower_slash : lower '/' = '/' := by decide

theorem lower_eqsign : lower '=' = '=' := by decide

theorem lower_h : lower 'h' = 'h' := by decide

theorem lower_r : lower 'r' = 'r' := by decide

theorem lower_e : lower 'e' = 'e' := by decide

theorem lower_f : lower 'f' = 'f' := by decide

theorem lower_a : lower 'a' = 'a' := by decide

theorem lower_b : lower 'b' = 'b' := by decide

theorem lower_u : lower 'u' = 'u' := by decide

theorem lower_t : lower 't' = 't' := by decide

theorem lower_o : lower 'o' = 'o' := by decide

theorem lower_n : lower 'n' = 'n' := by decide

def SafeHrefChar (c : Char) : Prop :=
  c ≠ '"' ∧ c ≠ squote ∧ c ≠ '>' ∧ c ≠ '='

instance (c : Char) : Decidable (SafeHrefChar c) :=
  inferInstanceAs (Decidable (c ≠ '"' ∧ c ≠ squote ∧ c ≠ '>' ∧ c ≠ '='))

theorem tryHref_append_none {rest : List Char} :
    ∀ {h1 : List Char}, (∀ c ∈ h1, SafeHrefChar c) →
      tryHref (h1 ++ '"' :: '>' :: rest) = none := by
  intro h1 hs
  match h1 with
  | [] =>
    simp only [List.nil_append, tryHref, hrefWord, stripCI]
    rw [if_neg (by simp [lower_dq, lower_h])]
  | [a] =>
    simp only [List.cons_append, List.nil_append, tryHref, hrefWord, stripCI]
    by_cases ha : lower a = lower 'h'
    · rw [if_pos ha, if_neg (by simp [lower_dq, lower_r])]
    · rw [if_neg ha]
  | [a, b] =>
    simp only [List.cons_append, List.nil_append, tryHref, hrefWord, stripCI]
    by_cases ha : lower a = lower 'h'
    · by_cases hb : lower b = lower 'r'
      · rw [if_pos ha, if_pos hb, if_neg (by simp [lower_dq, lower_e])]
      · rw [if_pos ha, if_neg hb]
    · rw [if_neg ha]
  | [a, b, c] =>
    simp only [List.cons_append, List.nil_append, tryHref, hrefWord, stripCI]
    by_cases ha : lower a = lower 'h'
    · by_cases hb : lower b = lower 'r'
      · by_cases hc : lower c = lower 'e'
        · rw [if_pos ha, if_pos hb, if_pos hc, if_neg (by simp [lower_dq, lower_f])]
        · rw [if_pos ha, if_pos hb, if_neg hc]
      · rw [if_pos ha, if_neg hb]
    · rw [if_neg ha]
  | [a, b, c, d] =>
    simp only [List.cons_append, List.nil_append, tryHref, hrefWord, stripCI]
    by_cases ha : lower a = lower 'h'
    · by_cases hb : lower b = lower 'r'
      · by_cases hc : lower c = lower 'e'
        · by_cases hd : lower d = lower 'f'
          · rw [if_pos ha, if_pos hb, if_pos hc, if_pos hd,
              if_neg (by simp [lower_dq, lower_eqsign])]
          · rw [if_pos ha, if_pos hb, if_pos hc, if_neg hd]
        · rw [if_pos ha, if_pos hb, if_neg hc]
      · rw [if_pos ha, if_neg hb]
    · rw [if_neg ha]
  | a :: b :: c :: d :: e :: t =>
    have he : e ≠ '=' := ((hs e (by simp)).2.2.2)
    simp only [List.cons_append, List.nil_append, tryHref, hrefWord, stripCI]
    by_cases ha : lower a = lower 'h'
    · by_cases hb : lower b = lower 'r'
      · by_cases hc : lower c = lower 'e'
        · by_cases hd : lower d = lower 'f'
          · rw [if_pos ha, if_pos hb, if_pos hc, if_pos hd,
              if_neg (by rw [lower_eqsign, lower_eq_eqsign_iff]; exact he)]
          · rw [if_pos ha, if_pos hb, if_pos hc, if_neg hd]
        · rw [if_pos ha, if_pos hb, if_neg hc]
      · rw [if_pos ha, if_neg hb]
    · rw [if_neg ha]

theorem tryHref_gt_none {rest : List Char} : tryHref ('>' :: rest) = none := by
  simp only [tryHref, hrefWord, stripCI]
  rw [if_neg (by simp [lower_gt, lower_h])]

theorem matchAfterA_gt_none {rest : List Char} :
    matchAfterA ('>' :: rest) = none := by
  simp only [matchAfterA, if_true]
  exact tryHref_gt_none

theorem matchAfterA_append_none {rest : List Char} :
    ∀ {h1 : List Char}, (∀ c ∈ h1, SafeHrefChar c) →
      matchAfterA (h1 ++ '"' :: '>' :: rest) = none := by
  intro h1 hs
  induction h1 with
  | nil =>
    have hdq : tryHref ('"' :: '>' :: rest) = none :=
      @tryHref_append_none rest [] (by simp)
    simp only [List.nil_append, matchAfterA, if_true, tryHref_gt_none, hdq, ite_self]
  | cons c t ih =>
    have hc : SafeHrefChar c := hs c (by simp)
    have hcgt : c ≠ '>' := hc.2.2.1
    have hrest := ih (fun x hx => hs x (by simp [hx]))
    have hthis := @tryHref_append_none rest (c :: t) hs
    simp only [List.cons_append] at hthis
    simp only [List.cons_append, matchAfterA, List.append_eq]
    rw [if_neg hcgt, hrest, hthis]

theorem takeWhile_middle {p : Char → Bool} :
    ∀ {h1 : List Char} {c : Char} {rest : List Char},
      (∀ x ∈ h1, p x = true) → p c = false →
      (h1 ++ c :: rest).takeWhile p = h1 ∧
        (h1 ++ c :: rest).dropWhile p = c :: rest := by
  intro h1 c rest hall hc
  induction h1 with
  | nil => simp [List.takeWhile_cons, List.dropWhile_cons, hc]
  | cons a t ih =>
    have ha : p a = true := hall a (by simp)
    have iht := ih (fun x hx => hall x (by simp [hx]))
    simp [List.takeWhile_cons, List.dropWhile_cons, ha, iht.1, iht.2]

theorem matchQuoted_anchor {h : List Char} {rest : List Char}
    (hs : ∀ c ∈ h, SafeHrefChar c) (hne : h ≠ []) :
    matchQuoted ('"' :: (h ++ '"' :: '>' :: rest)) = some (h, '>' :: rest) := by
  have hq : ∀ x ∈ h, (!isQuote x) = true := by
    intro x hx
    have hx2 := hs x hx
    simp [isQuote, hx2.1, hx2.2.1]
  have hdq : (!isQuote '"') = false := by decide
  obtain ⟨ht, hd⟩ :=
    @takeWhile_middle (fun x => !isQuote x) h '"' ('>' :: rest) hq hdq
  simp only [matchQuoted, ht, hd]
  simp [isQuote, hne]

theorem matchAfterA_cons (c : Char) (l : List Char) :
    matchAfterA (c :: l) =
      if c = '>' then tryHref (c :: l)
      else
        match matchAfterA l with
        | some r => some r
        | none => tryHref (c :: l) := rfl

theorem tryHref_head_none {c : Char} {x : List Char} (h : lower c ≠ 'h') :
    tryHref (c :: x) = none := by
  simp only [tryHref, hrefWord, stripCI, lower_h]
  rw [if_neg h]

theorem tryHref_anchor {h : List Char} {rest : List Char}
    (hs : ∀ c ∈ h, SafeHrefChar c) (hne : h ≠ []) :
    tryHref ('h' :: 'r' :: 'e' :: 'f' :: '=' :: '"' :: (h ++ '"' :: '>' :: rest)) =
      some (h, '>' :: rest) := by
  simp only [tryHref, hrefWord, stripCI, lower_h, lower_r, lower_e, lower_f,
    lower_eqsign, if_true, ite_self]
  exact matchQuoted_anchor hs hne

theorem matchAfterA_anchor {h : List Char} {rest : List Char}
    (hs : ∀ c ∈ h, SafeHrefChar c) (hne : h ≠ []) :
    matchAfterA (' ' :: 'h' :: 'r' :: 'e' :: 'f' :: '=' :: '"' ::
        (h ++ '"' :: '>' :: rest)) = some (h, '>' :: rest) := by
  have t1 : matchAfterA ('"' :: (h ++ '"' :: '>' :: rest)) = none := by
    rw [matchAfterA_cons, if_neg (by decide : ¬ ('"' : Char) = '>'),
      matchAfterA_append_none hs, tryHref_head_none (by decide)]
  have t2 : matchAfterA ('=' :: '"' :: (h ++ '"' :: '>' :: rest)) = none := by
    rw [matchAfterA_cons, if_neg (by decide : ¬ ('=' : Char) = '>'), t1,
      tryHref_head_none (by decide)]
  have t3 : matchAfterA ('f' :: '=' :: '"' :: (h ++ '"' :: '>' :: rest)) = none := by
    rw [matchAfterA_cons, if_neg (by decide : ¬ ('f' : Char) = '>'), t2,
      tryHref_head_none (by decide)]
  have t4 : matchAfterA ('e' :: 'f' :: '=' :: '"' :: (h ++ '"' :: '>' :: rest)) = none := by
    rw [matchAfterA_cons, if_neg (by decide : ¬ ('e' : Char) = '>'), t3,
      tryHref_head_none (by decide)]
  have t5 : matchAfterA ('r' :: 'e' :: 'f' :: '=' :: '"' :: (h ++ '"' :: '>' :: rest)) = none := by
    rw [matchAfterA_cons, if_neg (by decide : ¬ ('r' : Char) = '>'), t4,
      tryHref_head_none (by decide)]
  have t6 : matchAfterA ('h' :: 'r' :: 'e' :: 'f' :: '=' :: '"' :: (h ++ '"' :: '>' :: rest)) =
      some (h, '>' :: rest) := by
    rw [matchAfterA_cons, if_neg (by decide : ¬ ('h' : Char) = '>'), t5,
      tryHref_anchor hs hne]
  rw [matchAfterA_cons, if_neg (by decide : ¬ (' ' : Char) = '>'), t6]

/-- A well-formed anchor tag `<a href="h">` (the scan consumes it up to the
closing quote; the final `>` is left in the remainder). -/
def anchorTag (h : List Char) : List Char :=
  '<' :: 'a' :: ' ' :: 'h' :: 'r' :: 'e' :: 'f' :: '=' :: '"' :: (h ++ ['"', '>'])

/-- A body assembled from interstitial text pieces and anchor tags:
`p1 <a href="h1"> p2 <a href="h2"> ... tail`. -/
def mapperBody : List (List Char × List Char) → List Char → List Char
  | [], tail => tail
  | (p, h) :: ps, tail => p ++ (anchorTag h ++ mapperBody ps tail)

theorem matchLinkAt_anchor {h rest : List Char}
    (hs : ∀ c ∈ h, SafeHrefChar c) (hne : h ≠ []) :
    matchLinkAt (anchorTag h ++ rest) = some (h, '>' :: rest) := by
  have hform : anchorTag h ++ rest =
      '<' :: 'a' :: (' ' :: 'h' :: 'r' :: 'e' :: 'f' :: '=' :: '"' ::
        (h ++ '"' :: '>' :: rest)) := by
    simp [anchorTag]
  rw [hform]
  simp only [matchLinkAt, lower_a]
  rw [if_pos (by simp)]
  exact matchAfterA_anchor hs hne

theorem matchLinkAt_cons_none {c : Char} {l : List Char} (hc : c ≠ '<') :
    matchLinkAt (c :: l) = none := by
  cases l with
  | nil => rfl
  | cons d t => simp [matchLinkAt, hc]

theorem extractLinks_skip {p : List Char} (hp : ∀ c ∈ p, c ≠ '<') :
    ∀ {l : List Char}, extractLinks (p ++ l) = extractLinks l := by
  intro l
  induction p with
  | nil => rfl
  | cons c t ih =>
    rw [List.cons_append,
      extractLinks_cons_none (matchLinkAt_cons_none (hp c (by simp))),
      ih (fun x hx => hp x (by simp [hx]))]

theorem extractLinks_anchor {h B : List Char}
    (hs : ∀ c ∈ h, SafeHrefChar c) (hne : h ≠ []) :
    extractLinks (anchorTag h ++ B) = h :: extractLinks B := by
  have hm := @matchLinkAt_anchor h B hs hne
  have hform : anchorTag h ++ B =
      '<' :: ('a' :: ' ' :: 'h' :: 'r' :: 'e' :: 'f' :: '=' :: '"' ::
        (h ++ '"' :: '>' :: B)) := by
    simp [anchorTag]
  rw [hform] at hm ⊢
  rw [extractLinks_cons_some hm,
    extractLinks_cons_none (matchLinkAt_cons_none (by decide))]

theorem extractLinks_nil : extractLinks [] = [] := rfl

theorem extractLinks_mapperBody :
    ∀ (ps : List (List Char × List Char)) (tail : List Char),
      (∀ pr ∈ ps, (∀ c ∈ pr.1, c ≠ '<') ∧ pr.2 ≠ [] ∧ ∀ c ∈ pr.2, SafeHrefChar c) →
      (∀ c ∈ tail, c ≠ '<') →
      extractLinks (mapperBody ps tail) = ps.map Prod.snd := by
  intro ps
  induction ps with
  | nil =>
    intro tail hps htail
    have := @extractLinks_skip tail htail []
    rw [List.append_nil] at this
    simp only [mapperBody, List.map_nil]
    rw [this, extractLinks_nil]
  | cons pr ps ih =>
    intro tail hps htail
    obtain ⟨p, h⟩ := pr
    have hcond := hps (p, h) (by simp)
    simp only [mapperBody, List.map_cons]
    rw [extractLinks_skip hcond.1, extractLinks_anchor hcond.2.2 hcond.2.1,
      ih tail (fun x hx => hps x (by simp [hx])) htail]

theorem lower_lt_lit : lower '<' = '<' := by decide

theorem startsCI_buttonClose_false {c : Char} {l : List Char} (hc : c ≠ '<') :
    startsCI buttonClose (c :: l) = false := by
  simp only [startsCI, buttonClose, stripCI, lower_lt_lit]
  rw [if_neg (fun hh => hc (lower_eq_lt_iff.mp hh))]
  rfl

theorem buttonBody_cons (c : Char) (l : List Char) :
    buttonBody (c :: l) =
      if startsCI buttonClose (c :: l) then some ([], (c :: l).drop 9)
      else if isLineTerm c then none
      else
        match buttonBody l with
        | some (cap, after) => some (c :: cap, after)
        | none => none := rfl

theorem buttonBody_newline_none :
    ∀ {s : List Char}, '\n' ∈ s → (∀ c ∈ s, c ≠ '<') →
      ∀ {t : List Char}, buttonBody (s ++ t) = none := by
  intro s hnl hlt t
  induction s with
  | nil => simp at hnl
  | cons c s ih =>
    have hc : c ≠ '<' := hlt c (by simp)
    rw [List.cons_append, buttonBody_cons, startsCI_buttonClose_false hc]
    simp only [Bool.false_eq_true, if_false]
    cases hterm : isLineTerm c with
    | true => simp
    | false =>
      have hcn : c ≠ '\n' := by
        intro hh
        rw [hh] at hterm
        exact absurd hterm (by decide)
      have hnl2 : '\n' ∈ s := by
        rcases List.mem_cons.mp hnl with h1 | h1
        · exact absurd h1.symm hcn
        · exact h1
      rw [ih hnl2 (fun x hx => hlt x (by simp [hx]))]
      simp

theorem matchButtonAt_open {r : List Char} :
    matchButtonAt
        ('<' :: 'b' :: 'u' :: 't' :: 't' :: 'o' :: 'n' :: '>' :: r) =
      buttonBody r := by
  simp only [matchButtonAt, buttonWord, stripCI, lower_b, lower_u, lower_t,
    lower_o, lower_n, if_true, ite_self]
  simp [List.dropWhile_cons]

theorem matchButtonAt_cons_none {c : Char} {l : List Char} (hc : c ≠ '<') :
    matchButtonAt (c :: l) = none := by
  simp [matchButtonAt, hc]

theorem matchButtonAt_close_none {x : List Char} :
    matchButtonAt ('<' :: '/' :: x) = none := by
  simp only [matchButtonAt, buttonWord, stripCI, lower_slash, lower_b, if_true]
  rw [if_neg (by decide : ¬ ('/' : Char) = 'b')]

theorem extractButtons_skip {p : List Char} (hp : ∀ c ∈ p, c ≠ '<') :
    ∀ {l : List Char}, extractButtons (p ++ l) = extractButtons l := by
  intro l
  induction p with
  | nil => rfl
  | cons c t ih =>
    rw [List.cons_append,
      extractButtons_cons_none (matchButtonAt_cons_none (hp c (by simp))),
      ih (fun x hx => hp x (by simp [hx]))]

theorem extractButtons_no_open {l : List Char} (hl : ∀ c ∈ l, c ≠ '<') :
    extractButtons l = [] := by
  have := @extractButtons_skip l hl []
  rw [List.append_nil] at this
  rw [this]
  rfl

theorem extractButtons_newline_general {pre inner post : List Char}
    (hpre : ∀ c ∈ pre, c ≠ '<') (hpost : ∀ c ∈ post, c ≠ '<')
    (hnl : '\n' ∈ inner) (hin : ∀ c ∈ inner, c ≠ '<') :
    extractButtons (pre ++
      ('<' :: 'b' :: 'u' :: 't' :: 't' :: 'o' :: 'n' :: '>' ::
        (inner ++ ('<' :: '/' :: 'b' :: 'u' :: 't' :: 't' :: 'o' :: 'n' :: '>' ::
          post)))) = [] := by
  rw [extractButtons_skip hpre]
  have hb : buttonBody
      (inner ++ ('<' :: '/' :: 'b' :: 'u' :: 't' :: 't' :: 'o' :: 'n' :: '>' ::
        post)) = none :=
    buttonBody_newline_none hnl hin
  have hm : matchButtonAt
      ('<' :: 'b' :: 'u' :: 't' :: 't' :: 'o' :: 'n' :: '>' ::
        (inner ++ ('<' :: '/' :: 'b' :: 'u' :: 't' :: 't' :: 'o' :: 'n' :: '>' ::
          post))) = none := by
    rw [matchButtonAt_open, hb]
  rw [extractButtons_cons_none hm]
  rw [show ('b' :: 'u' :: 't' :: 't' :: 'o' :: 'n' :: '>' ::
      (inner ++ ('<' :: '/' :: 'b' :: 'u' :: 't' :: 't' :: 'o' :: 'n' :: '>' ::
        post))) =
      (['b', 'u', 't', 't', 'o', 'n', '>'] ++ inner) ++
        ('<' :: ('/' :: 'b' :: 'u' :: 't' :: 't' :: 'o' :: 'n' :: '>' :: post))
    from by simp]
  rw [extractButtons_skip (by
    intro c hcm
    rcases List.mem_append.mp hcm with h1 | h1
    · simp only [List.mem_cons] at h1
      rcases h1 with rfl | rfl | rfl | rfl | rfl | rfl | rfl | h1 <;>
        first | decide | simp at h1
    · exact hin c h1)]
  rw [extractButtons_cons_none matchButtonAt_close_none]
  apply extractButtons_no_open
  intro c hcm
  rw [show ('/' :: 'b' :: 'u' :: 't' :: 't' :: 'o' :: 'n' :: '>' :: post) =
      ['/', 'b', 'u', 't', 't', 'o', 'n', '>'] ++ post from by simp] at hcm
  rcases List.mem_append.mp hcm with h1 | h1
  · simp only [List.mem_cons] at h1
    rcases h1 with rfl | rfl | rfl | rfl | rfl | rfl | rfl | rfl | h1 <;>
      first | decide | simp at h1
  · exact hpost c h1

/-- Claim C1: on the body `<button>Outer<button>Inner</button></button>` the
extractor produces exactly one button label, and the captured text runs from
just after the first opening tag up to (excluding) the first `</button>`
encountered, so it contains the inner `<button>Inner` markup remnants. -/
theorem claim_C1_nested_button_capture :
    extractButtons (("<button>Outer<button>Inner</button></button>").toList) =
      [("Outer<button>Inner").toList] := by decide

/-- Claim C2, counterexample: it is not true that both invoker variants exit
nonzero whenever the subprocess exits nonzero — the output-capturing variant
(`cli_bridge`) returns 0 at the concrete input below although the subprocess
exit code is 1, because the `pclose` status is discarded. -/
theorem claim_C2_counterexample :
    ¬ (∀ (argv : List (List Char)) (out : List Char) (code sysRes : Int),
        2 ≤ argv.length → code ≠ 0 → sysRes ≠ 0 →
        (cliBridgeMain argv (some (out, code))).exitCode ≠ 0 ∧
          (cliRunnerMain argv sysRes).exitCode ≠ 0) := by
  intro hcl
  exact (hcl [['c'], ['x']] [] 1 1 (by decide) (by decide) (by decide)).1 rfl

/-- Claim C2, amended: the stream-inheriting variant (`cli_runner`) returns
the `std::system` result unchanged, so it exits nonzero whenever the
subprocess cannot be started or exits nonzero; the output-capturing variant
(`cli_bridge`) exits nonzero only when the subprocess cannot be started
(`popen` returns null), and returns 0 regardless of the subprocess exit code
once the pipe opened. -/
theorem claim_C2_amended (argv : List (List Char)) (out : List Char)
    (code sysRes : Int) (hargs : 2 ≤ argv.length) :
    (cliRunnerMain argv sysRes).exitCode = sysRes ∧
      (cliBridgeMain argv none).exitCode = 1 ∧
      (cliBridgeMain argv (some (out, code))).exitCode = 0 := by
  have hng : ¬ argv.length < 2 := by omega
  unfold cliRunnerMain cliBridgeMain
  rw [if_neg hng, if_neg hng, if_neg hng]
  exact ⟨rfl, rfl, rfl⟩

theorem claim_C2_amended_witness :
    2 ≤ ([['c'], ['x']] : List (List Char)).length ∧
      (cliRunnerMain [['c'], ['x']] 3).exitCode = 3 ∧
      (cliBridgeMain [['c'], ['x']] none).exitCode = 1 ∧
      (cliBridgeMain [['c'], ['x']] (some (['o'], 7))).exitCode = 0 :=
  ⟨by decide, (claim_C2_amended [['c'], ['x']] ['o'] 7 3 (by decide)).1,
    (claim_C2_amended [['c'], ['x']] ['o'] 7 3 (by decide)).2.1,
    (claim_C2_amended [['c'], ['x']] ['o'] 7 3 (by decide)).2.2⟩

/-- Claim C3: a body assembled from anchor tags separated by tag-free text
pieces yields exactly one link per anchor, equal to its quoted `href` value,
in document order; repeated values are kept as separate entries. -/
theorem claim_C3_links_in_order (ps : List (List Char × List Char))
    (tail : List Char)
    (hps : ∀ pr ∈ ps, (∀ c ∈ pr.1, c ≠ '<') ∧ pr.2 ≠ [] ∧
      ∀ c ∈ pr.2, SafeHrefChar c)
    (htail : ∀ c ∈ tail, c ≠ '<') :
    extractLinks (mapperBody ps tail) = ps.map Prod.snd ∧
      (extractLinks (mapperBody ps tail)).length = ps.length := by
  have h := extractLinks_mapperBody ps tail hps htail
  exact ⟨h, by rw [h, List.length_map]⟩

theorem claim_C3_links_in_order_witness :
    (∀ pr ∈ ([(([] : List Char), ['u']), ([' '], ['u'])] :
        List (List Char × List Char)),
      (∀ c ∈ pr.1, c ≠ '<') ∧ pr.2 ≠ [] ∧ ∀ c ∈ pr.2, SafeHrefChar c) ∧
      (∀ c ∈ ['!'], c ≠ '<') ∧
      extractLinks (mapperBody [(([] : List Char), ['u']), ([' '], ['u'])] ['!']) =
        [['u'], ['u']] :=
  ⟨by decide, by decide,
    (claim_C3_links_in_order [(([] : List Char), ['u']), ([' '], ['u'])] ['!']
      (by decide) (by decide)).1⟩

/-- Claim C4: tag and attribute matching is case-insensitive — `<A HREF='x'>`,
`<a href="x">` and `<a HREF='x'>` all extract the target `x` — and the quoted
value is captured verbatim, without HTML-entity or percent decoding. -/
theorem claim_C4_case_insensitive_verbatim :
    extractLinks (['<', 'A', ' ', 'H', 'R', 'E', 'F', '='] ++
        squote :: 'x' :: squote :: ['>']) = [['x']] ∧
      extractLinks (("<a href=\"x\">").toList) = [['x']] ∧
      extractLinks (['<', 'a', ' ', 'H', 'R', 'E', 'F', '='] ++
        squote :: 'x' :: squote :: ['>']) = [['x']] ∧
      extractLinks (("<a href=\"a&amp;b%20c\">").toList) =
        [("a&amp;b%20c").toList] := by decide

/-- Claim C5: once a body is available, extraction always succeeds — the
empty body yields empty `Links` and `ButtonLabels`, no error is signalled,
and the run reports success (exit status 0) for every body, including when
both sequences are empty. -/
theorem claim_C5_extraction_always_succeeds (argv : List (List Char))
    (body : List Char) (hargs : 2 ≤ argv.length) :
    extractLinks [] = [] ∧ extractButtons [] = [] ∧
      (websiteMapperMain argv (FetchOutcome.success body)).exitCode = 0 ∧
      (websiteMapperMain argv (FetchOutcome.success body)).err = [] := by
  have hng : ¬ argv.length < 2 := by omega
  unfold websiteMapperMain
  rw [if_neg hng]
  exact ⟨rfl, rfl, rfl, rfl⟩

theorem claim_C5_extraction_always_succeeds_witness :
    2 ≤ ([['m'], ['u']] : List (List Char)).length ∧
      (websiteMapperMain [['m'], ['u']] (FetchOutcome.success [])).exitCode = 0 :=
  ⟨by decide,
    (claim_C5_extraction_always_succeeds [['m'], ['u']] [] (by decide)).2.2.1⟩

/-- Claim C6: with no URL (or command) argument, `website_mapper` and
`cli_runner` report the missing argument on stderr immediately, exit 1, and
perform no network or subprocess activity. -/
theorem claim_C6_missing_argument (argv : List (List Char))
    (fetch : FetchOutcome) (sysRes : Int) (hargs : argv.length < 2) :
    (websiteMapperMain argv fetch).exitCode = 1 ∧
      (websiteMapperMain argv fetch).events = [] ∧
      (websiteMapperMain argv fetch).err =
        ("Usage: ").toList ++ argv.headD [] ++ (" <url>\n").toList ∧
      (cliRunnerMain argv sysRes).exitCode = 1 ∧
      (cliRunnerMain argv sysRes).events = [] ∧
      (cliRunnerMain argv sysRes).err = ("No command provided\n").toList := by
  unfold websiteMapperMain cliRunnerMain
  rw [if_pos hargs, if_pos hargs]
  exact ⟨rfl, rfl, rfl, rfl, rfl, rfl⟩

theorem claim_C6_missing_argument_witness :
    ([['m']] : List (List Char)).length < 2 ∧
      (websiteMapperMain [['m']] (FetchOutcome.success ['x'])).exitCode = 1 ∧
      (websiteMapperMain [['m']] (FetchOutcome.success ['x'])).events = [] ∧
      (cliRunnerMain [['m']] 0).events = [] :=
  ⟨by decide,
    (claim_C6_missing_argument [['m']] (FetchOutcome.success ['x']) 0
      (by decide)).1,
    (claim_C6_missing_argument [['m']] (FetchOutcome.success ['x']) 0
      (by decide)).2.1,
    (claim_C6_missing_argument [['m']] (FetchOutcome.success ['x']) 0
      (by decide)).2.2.2.2.1⟩

/-- Claim C7: a fetch failure terminates the run with exit 1, the curl
reason string on stderr, no output and no extraction (the only event is the
network call); normal output appears only when the run fully succeeds. -/
theorem claim_C7_transport_failure (argv : List (List Char))
    (reason : List Char) (fetch : FetchOutcome) (hargs : 2 ≤ argv.length) :
    (websiteMapperMain argv (FetchOutcome.transportFailure reason)).exitCode = 1 ∧
      (websiteMapperMain argv (FetchOutcome.transportFailure reason)).err =
        ("curl_easy_perform() failed: ").toList ++ reason ++ ['\n'] ∧
      (websiteMapperMain argv (FetchOutcome.transportFailure reason)).out = [] ∧
      (websiteMapperMain argv (FetchOutcome.transportFailure reason)).events =
        [ProcEvent.networkCall] ∧
      ProcEvent.extraction ∉
        (websiteMapperMain argv (FetchOutcome.transportFailure reason)).events ∧
      ((websiteMapperMain argv fetch).out ≠ [] →
        (websiteMapperMain argv fetch).exitCode = 0) := by
  have hng : ¬ argv.length < 2 := by omega
  refine ⟨?_, ?_, ?_, ?_, ?_, ?_⟩
  · unfold websiteMapperMain
    rw [if_neg hng]
  · unfold websiteMapperMain
    rw [if_neg hng]
  · unfold websiteMapperMain
    rw [if_neg hng]
  · unfold websiteMapperMain
    rw [if_neg hng]
  · unfold websiteMapperMain
    rw [if_neg hng]
    show ProcEvent.extraction ∉ [ProcEvent.networkCall]
    decide
  · intro hout
    unfold websiteMapperMain at hout ⊢
    rw [if_neg hng] at hout ⊢
    cases fetch with
    | initFailure => exact absurd rfl hout
    | transportFailure r => exact absurd rfl hout
    | success body => rfl

theorem claim_C7_transport_failure_witness :
    2 ≤ ([['m'], ['u']] : List (List Char)).length ∧
      (websiteMapperMain [['m'], ['u']]
        (FetchOutcome.transportFailure (("no host").toList))).exitCode = 1 ∧
      (websiteMapperMain [['m'], ['u']]
        (FetchOutcome.transportFailure (("no host").toList))).out = [] ∧
      (websiteMapperMain [['m'], ['u']]
        (FetchOutcome.transportFailure (("no host").toList))).events =
        [ProcEvent.networkCall] :=
  ⟨by decide,
    (claim_C7_transport_failure [['m'], ['u']] (("no host").toList)
      (FetchOutcome.success []) (by decide)).1,
    (claim_C7_transport_failure [['m'], ['u']] (("no host").toList)
      (FetchOutcome.success []) (by decide)).2.2.1,
    (claim_C7_transport_failure [['m'], ['u']] (("no host").toList)
      (FetchOutcome.success []) (by decide)).2.2.2.1⟩

/-- Claim C8: on full success the output is, in fixed order, the header
`Links found:` with one ` - <link>` line per link, a blank line, then the
header `Buttons found:` with one ` - <label>` line per label; checked both
for every body and on the spec's end-to-end example. -/
theorem claim_C8_output_format (argv : List (List Char)) (body : List Char)
    (hargs : 2 ≤ argv.length) :
    (websiteMapperMain argv (FetchOutcome.success body)).out =
      ("Links found:\n").toList
        ++ ((extractLinks body).map
            (fun s => (" - ").toList ++ s ++ ['\n'])).flatten
        ++ ('\n' :: ("Buttons found:\n").toList)
        ++ ((extractButtons body).map
            (fun s => (" - ").toList ++ s ++ ['\n'])).flatten ∧
      (websiteMapperMain [("m").toList, ("u").toList]
        (FetchOutcome.success
          (("<html><a href=\"/about\">About</a><button class=\"x\">Go</button></html>").toList))).out =
        ("Links found:\n - /about\n\nButtons found:\n - Go\n").toList := by
  constructor
  · have hng : ¬ argv.length < 2 := by omega
    unfold websiteMapperMain
    rw [if_neg hng]
    rfl
  · decide

theorem claim_C8_output_format_witness :
    2 ≤ ([['m'], ['u']] : List (List Char)).length ∧
      (websiteMapperMain [['m'], ['u']] (FetchOutcome.success [])).out =
        ("Links found:\n").toList
          ++ ((extractLinks []).map
              (fun s => (" - ").toList ++ s ++ ['\n'])).flatten
          ++ ('\n' :: ("Buttons found:\n").toList)
          ++ ((extractButtons []).map
              (fun s => (" - ").toList ++ s ++ ['\n'])).flatten :=
  ⟨by decide, (claim_C8_output_format [['m'], ['u']] [] (by decide)).1⟩

/-- Claim C9: a button whose inner text contains a line break between the
opening and closing tags produces no button label — the pattern's `.` does
not match line terminators, so such buttons are silently skipped (stated for
bodies whose other pieces contain no `<`). -/
theorem claim_C9_multiline_button_skipped (pre inner post : List Char)
    (hpre : ∀ c ∈ pre, c ≠ '<') (hpost : ∀ c ∈ post, c ≠ '<')
    (hnl : '\n' ∈ inner) (hin : ∀ c ∈ inner, c ≠ '<') :
    extractButtons (pre ++ ("<button>").toList ++ inner ++
      ("</button>").toList ++ post) = [] := by
  have hform : pre ++ ("<button>").toList ++ inner ++
        ("</button>").toList ++ post =
      pre ++ ('<' :: 'b' :: 'u' :: 't' :: 't' :: 'o' :: 'n' :: '>' ::
        (inner ++ ('<' :: '/' :: 'b' :: 'u' :: 't' :: 't' :: 'o' :: 'n' :: '>' ::
          post))) := by
    simp
  rw [hform]
  exact extractButtons_newline_general hpre hpost hnl hin

theorem claim_C9_multiline_button_skipped_witness :
    '\n' ∈ ("a\nb").toList ∧ (∀ c ∈ ("a\nb").toList, c ≠ '<') ∧
      extractButtons (([] : List Char) ++ ("<button>").toList ++
        ("a\nb").toList ++ ("</button>").toList ++ []) = [] :=
  ⟨by decide, by decide,
    claim_C9_multiline_button_skipped [] (("a\nb").toList) [] (by decide)
      (by decide) (by decide) (by decide)⟩

/-- Claim C10: the link pattern accepts any tag whose name begins with `a`
followed later by `href`, so the body `<abbr href="x">`, which contains no
anchor element, still yields the link `x`. -/
theorem claim_C10_non_anchor_tag_matches :
    extractLinks (("<abbr href=\"x\">").toList) = [['x']] ∧
      extractLinks (("<abbr href=\"x\">").toList) ≠ [] := by decide
